import Mathlib

/-!
# Verification of the NestJS route-scanner core

A shallow embedding of `src/route-scanner.ts`: the path normalizer
(`buildRoutePath`), the route extractor (`extractControllerRoutes`) and the
module-graph walker (`processModule` / `extractRoutesFromModule`), together
with proofs of the specified properties.

Conventions of the embedding:
* JavaScript strings are Lean `String`s (lists of characters).
* A metadata value that may be absent is an `Option`; a metadata read that
  may throw is an `Except Unit`.
* Module descriptors are identified by `Nat` ids (object identity); the
  metadata attached to each id is recorded in an association-list graph.
* The general recursion of `processModule` is embedded with an explicit
  fuel parameter; termination of the source recursion is the theorem that
  any fuel of at least `defaultFuel` produces `some` result, and that the
  result is independent of the fuel from that point on.
-/

namespace RouteScanner

/-! ## Path normalizer (`buildRoutePath`) -/

/-- One pass of the regex `/\/+/g → "/"`: collapse every run of consecutive
`'/'` characters into a single `'/'`. -/
def collapseSlashes : List Char → List Char
  | [] => []
  | [c] => [c]
  | a :: b :: rest =>
    if a = '/' ∧ b = '/' then collapseSlashes (b :: rest)
    else a :: collapseSlashes (b :: rest)

/-- The regex `/^\/+|\/+$/g → ""`: strip the leading run and the trailing run
of `'/'` characters. -/
def trimSlashes (l : List Char) : List Char :=
  ((l.dropWhile (fun c => c = '/')).reverse.dropWhile (fun c => c = '/')).reverse

/-- `buildRoutePath(prefix?, basePath?, routePath?)` from the source:
`[prefix, basePath, routePath].filter(Boolean)` drops absent (`undefined`)
and empty-string segments, the survivors are joined with `'/'`, a `'/'` is
prepended after collapsing slash runs and trimming boundary slashes, and the
final guard maps the empty string to `"/"`. -/
def buildRoutePath (pre basePath routePath : Option String) : String :=
  let parts := ([pre, basePath, routePath].filterMap id).filter (fun s => s ≠ "")
  let fullPath :=
    "/" ++ String.mk (trimSlashes (collapseSlashes (String.intercalate "/" parts).data))
  if fullPath = "" then "/" else fullPath

/-- Modelled from the spec (§4.3), for comparison with `buildRoutePath`:
"take the three optional segments, drop any that are empty/absent, join the
survivors with `/`, prepend `/`, collapse any run of consecutive `/` into
one, strip a trailing `/` (unless the result is just `/`)." -/
def normalizeSpec (pre basePath routePath : Option String) : String :=
  let parts := ([pre, basePath, routePath].filterMap id).filter (fun s => s ≠ "")
  let collapsed := String.mk (collapseSlashes ("/" ++ String.intercalate "/" parts).data)
  if collapsed = "/" then "/"
  else if collapsed.data.getLast? = some '/' then String.mk collapsed.data.dropLast
  else collapsed

/-- Executable check for a doubled slash `"//"` occurring in a character list. -/
def hasDoubleSlash : List Char → Bool
  | a :: b :: rest => (a = '/' && b = '/') || hasDoubleSlash (b :: rest)
  | _ => false

/-- The path well-formedness invariant of the spec: non-empty, starts with
`'/'`, no doubled slash, and no trailing `'/'` unless the path is exactly
`"/"`. -/
def pathWF (s : String) : Prop :=
  s.data ≠ [] ∧ s.data.head? = some '/' ∧ hasDoubleSlash s.data = false ∧
    (s ≠ "/" → s.data.getLast? ≠ some '/')

instance (s : String) : Decidable (pathWF s) := by
  unfold pathWF; infer_instance

/-! ## Verb normalization -/

/-- A JavaScript value stored as `"method"` metadata: NestJS uses numeric
codes, but any number or string may appear. -/
inductive VerbVal where
  | num (n : Nat)
  | str (s : String)
deriving DecidableEq, Repr

/-- `httpMethod.toString()`: the JS string form of the raw verb value, which
is also the property key it presents to `REQUEST_METHOD_MAP`. -/
def VerbVal.key : VerbVal → String
  | .num n => toString n
  | .str s => s

/-- `REQUEST_METHOD_MAP[httpMethod]`: property lookup in the numeric-keyed
object `\x7b0:'GET', …, 7:'ALL'\x7d`; JS coerces the subscript to its
string form. -/
def REQUEST_METHOD_MAP (v : VerbVal) : Option String :=
  if v.key = "0" then some "GET"
  else if v.key = "1" then some "POST"
  else if v.key = "2" then some "PUT"
  else if v.key = "3" then some "DELETE"
  else if v.key = "4" then some "PATCH"
  else if v.key = "5" then some "OPTIONS"
  else if v.key = "6" then some "HEAD"
  else if v.key = "7" then some "ALL"
  else none

/-- `toUpperCase()`: uppercase character by character (the embedding of JS
string uppercasing for the ASCII values that occur here). -/
def toUpperStr (s : String) : String := String.mk (s.data.map Char.toUpper)

/-- `REQUEST_METHOD_MAP[httpMethod] || httpMethod.toString().toUpperCase()`. -/
def normalizeVerb (v : VerbVal) : String :=
  (REQUEST_METHOD_MAP v).getD (toUpperStr v.key)

/-! ## Route extractor -/

instance {ε α : Type _} [DecidableEq ε] [DecidableEq α] : DecidableEq (Except ε α)
  | .error a, .error b =>
    if h : a = b then .isTrue (congrArg Except.error h)
    else .isFalse (fun hc => h (Except.error.inj hc))
  | .error _, .ok _ => .isFalse (fun hc => Except.noConfusion hc)
  | .ok _, .error _ => .isFalse (fun hc => Except.noConfusion hc)
  | .ok a, .ok b =>
    if h : a = b then .isTrue (congrArg Except.ok h)
    else .isFalse (fun hc => h (Except.ok.inj hc))

structure RouteInfo where
  method : String
  path : String
  handler : String
deriving DecidableEq, Repr

/-- One callable member of a controller prototype (`constructor` and
non-function properties already excluded, as in the source's `methodNames`
filter). Each metadata read may throw (`Except.error`) or return the
attached value / `undefined` (`Option`). -/
structure Member where
  name : String
  pathMeta : Except Unit (Option String)
  methodMeta : Except Unit (Option VerbVal)
deriving DecidableEq, Repr

/-- One controller class: its name, its base-path metadata read (which may
throw), and its prototype members in declaration order. -/
structure Ctrl where
  name : String
  basePathMeta : Except Unit (Option String)
  members : List Member
deriving DecidableEq, Repr

/-- The body of the per-member loop of `extractControllerRoutes`: `some`
when a `RouteInfo` is pushed, `none` when the member is skipped (absent
path, absent verb, or a thrown metadata read caught by the member-level
`try`). -/
def extractMember (pre : Option String) (basePath ctrlName : String)
    (m : Member) : Option RouteInfo :=
  match m.pathMeta, m.methodMeta with
  | .ok (some routePath), .ok (some httpMethod) =>
    some { method := normalizeVerb httpMethod,
           path := buildRoutePath pre (some basePath) (some routePath),
           handler := ctrlName ++ "." ++ m.name }
  | _, _ => none

/-- `extractControllerRoutes(controller, prefix)`: reads the base path
(`Reflect.getMetadata(PATH_METADATA, controller) || ''`, outside any `try`,
so a throw propagates as `Except.error`), then collects one `RouteInfo` per
member that declares both path and verb metadata. -/
def extractControllerRoutes (c : Ctrl) (pre : Option String) :
    Except Unit (List RouteInfo) :=
  match c.basePathMeta with
  | .error e => .error e
  | .ok bp => .ok (c.members.filterMap (extractMember pre (bp.getD "") c.name))

/-! ## Module graph walker -/

/-- One entry of a module's `controllers` metadata array: a controller
class, or a non-function value that the walker skips. -/
inductive CtrlEntry where
  | ctrl (c : Ctrl)
  | nonFn
deriving DecidableEq, Repr

/-- One entry of a module's `imports` metadata array: a plain module class,
a dynamic-module object whose `.module` field may or may not be a function,
or any other value. -/
inductive ImportEntry where
  | moduleRef (i : Nat)
  | dynamicRef (inner : Option Nat)
  | otherVal
deriving DecidableEq, Repr

/-- The module the walker recurses into for one import entry, if any. -/
def importTarget : ImportEntry → Option Nat
  | .moduleRef i => some i
  | .dynamicRef (some i) => some i
  | .dynamicRef none => none
  | .otherVal => none

/-- The metadata attached to one module class: the `controllers` read and
the `imports` read, each of which may throw. A module carrying no metadata
is simply absent from the graph (both reads yield `undefined`, which
`|| []` turns into the empty array). -/
structure ModuleData where
  controllers : Except Unit (List CtrlEntry)
  imports : Except Unit (List ImportEntry)
deriving DecidableEq, Repr

/-- The module universe of one discovery run: module identity (the JS
object reference) is a `Nat` id, and the graph records the metadata
attached to each id. -/
abbrev Graph := List (Nat × ModuleData)

def lookupModule (g : Graph) (i : Nat) : Option ModuleData :=
  (g.find? (fun p => p.1 = i)).map (·.2)

/-- The aggregate route map: controller name to routes, as a JS object
(insertion order preserved). -/
abbrev RouteMap := List (String × List RouteInfo)

/-- `routeMap[ctrlName] = routes`: overwrite in place if the key exists
(JS objects keep the original position), append otherwise. -/
def setEntry (m : RouteMap) (k : String) (v : List RouteInfo) : RouteMap :=
  if m.any (fun p => p.1 = k) then
    m.map (fun p => if p.1 = k then (k, v) else p)
  else m ++ [(k, v)]

def lookupEntry (m : RouteMap) (k : String) : Option (List RouteInfo) :=
  (m.find? (fun p => p.1 = k)).map (·.2)

/-- The `for (const controller of controllers)` loop of `processModule`:
threads the route map, and reports `true` when `extractControllerRoutes`
threw (aborting the loop; insertions already made are kept, since the
`catch` does not roll back `routeMap`). -/
def processControllers (pre : Option String) :
    List CtrlEntry → RouteMap → RouteMap × Bool
  | [], m => (m, false)
  | .nonFn :: rest, m => processControllers pre rest m
  | .ctrl c :: rest, m =>
    match extractControllerRoutes c pre with
    | .error _ => (m, true)
    | .ok routes =>
      if routes.length > 0 then processControllers pre rest (setEntry m c.name routes)
      else processControllers pre rest m

/-- `processModule(moduleClass, routeMap, processedModules, prefix)`,
embedded with a fuel bound on the recursion depth (`none` means the fuel
ran out; that this never happens from `defaultFuel` upward is the
termination theorem). The visited set is the list of ids in visit order,
most recent first. -/
def processModuleF (g : Graph) (pre : Option String) :
    Nat → Option Nat → RouteMap → List Nat → Option (RouteMap × List Nat)
  | 0, _, _, _ => none
  | _ + 1, none, m, vis => some (m, vis)
  | fuel + 1, some i, m, vis =>
    if i ∈ vis then some (m, vis)
    else
      let vis₁ := i :: vis
      match lookupModule g i with
      | none => some (m, vis₁)
      | some d =>
        match d.controllers with
        | .error _ => some (m, vis₁)
        | .ok ctrls =>
          match processControllers pre ctrls m with
          | (m₁, true) => some (m₁, vis₁)
          | (m₁, false) =>
            match d.imports with
            | .error _ => some (m₁, vis₁)
            | .ok entries =>
              entries.foldl
                (fun st e =>
                  match st with
                  | none => none
                  | some (m₂, vis₂) =>
                    match importTarget e with
                    | none => some (m₂, vis₂)
                    | some inner => processModuleF g pre fuel (some inner) m₂ vis₂)
                (some (m₁, vis₁))

/-- The import-loop of `processModule`, given its own name for the proofs. -/
def processImportsF (g : Graph) (pre : Option String) (fuel : Nat)
    (entries : List ImportEntry) (st : Option (RouteMap × List Nat)) :
    Option (RouteMap × List Nat) :=
  entries.foldl
    (fun st e =>
      match st with
      | none => none
      | some (m₂, vis₂) =>
        match importTarget e with
        | none => some (m₂, vis₂)
        | some inner => processModuleF g pre fuel (some inner) m₂ vis₂)
    st

/-- The distinct module ids of the graph. -/
def domainIds (g : Graph) : List Nat := (g.map Prod.fst).dedup

/-- How many distinct modules of the graph are not yet visited. -/
def unvisitedCount (g : Graph) (vis : List Nat) : Nat :=
  ((domainIds g).filter (fun i => i ∉ vis)).length

/-- Enough fuel for any walk over `g`. -/
def defaultFuel (g : Graph) : Nat := unvisitedCount g [] + 1

/-- `extractRoutesFromModule(moduleClass, prefix)`: fresh route map and
fresh visited set, then one walk from the entry descriptor. -/
def extractRoutesFromModule (g : Graph) (entry : Option Nat)
    (pre : Option String) : RouteMap :=
  match processModuleF g pre (defaultFuel g) entry [] [] with
  | some (m, _) => m
  | none => []

/-! ## Concrete instances used in claim witnesses and counterexamples -/

/-- `@Controller('a')` with one `@Get()` member. -/
def ctrlA : Ctrl :=
  ⟨"AController", .ok (some "a"), [⟨"getA", .ok (some ""), .ok (some (.num 0))⟩]⟩

/-- `@Controller('b')` with one `@Post('x')` member. -/
def ctrlB : Ctrl :=
  ⟨"BController", .ok (some "b"), [⟨"getB", .ok (some "x"), .ok (some (.num 1))⟩]⟩

/-- `@Controller('d')` with one `@Get()` member. -/
def ctrlD : Ctrl :=
  ⟨"DController", .ok (some "d"), [⟨"getD", .ok (some ""), .ok (some (.num 0))⟩]⟩

/-- A two-module cycle: module 0 imports module 1 and vice versa. -/
def cycGraph : Graph :=
  [(0, ⟨.ok [.ctrl ctrlA], .ok [.moduleRef 1]⟩),
   (1, ⟨.ok [.ctrl ctrlB], .ok [.moduleRef 0]⟩)]

/-- A diamond: 0 imports 1 and 2, both of which import 3, which carries the
only controller. -/
def diamondGraph : Graph :=
  [(0, ⟨.ok [], .ok [.moduleRef 1, .moduleRef 2]⟩),
   (1, ⟨.ok [], .ok [.moduleRef 3]⟩),
   (2, ⟨.ok [], .ok [.moduleRef 3]⟩),
   (3, ⟨.ok [.ctrl ctrlD], .ok []⟩)]

/-- One module whose `controllers` read succeeds but whose `imports` read
throws. -/
def importsThrowGraph : Graph :=
  [(0, ⟨.ok [.ctrl ctrlA], .error ()⟩)]

/-- Two distinct controllers sharing the name `DupController`. -/
def dupCtrl₁ : Ctrl :=
  ⟨"DupController", .ok (some "first"), [⟨"m1", .ok (some ""), .ok (some (.num 0))⟩]⟩

def dupCtrl₂ : Ctrl :=
  ⟨"DupController", .ok (some "second"), [⟨"m2", .ok (some ""), .ok (some (.num 1))⟩]⟩

/-- Module 0 declares `dupCtrl₁` and imports module 1, which declares
`dupCtrl₂` — so the second one is discovered later. -/
def dupGraph : Graph :=
  [(0, ⟨.ok [.ctrl dupCtrl₁], .ok [.moduleRef 1]⟩),
   (1, ⟨.ok [.ctrl dupCtrl₂], .ok []⟩)]

/-- A controller with no members at all: extraction yields zero records. -/
def emptyCtrl : Ctrl := ⟨"EmptyController", .ok (some "nothing"), []⟩

def emptyCtrlGraph : Graph := [(0, ⟨.ok [.ctrl emptyCtrl], .ok []⟩)]

/-- A member with both path and verb metadata attached. -/
def goodMem : Member := ⟨"findAll", .ok (some "x"), .ok (some (.num 0))⟩

/-- A member whose path metadata is absent (an ordinary method). -/
def badMem : Member := ⟨"helper", .ok none, .ok (some (.num 0))⟩

/-! ### Slash-collapsing algebra

The source computes `'/' + trim(collapse(joined))` while the spec describes
`stripTrailing(collapse('/' + joined))`; the lemmas below show the two
agree on every string. -/

/-- Adjacent characters are never both `'/'`. -/
def SlashSep (a b : Char) : Prop := ¬(a = '/' ∧ b = '/')

theorem collapseSlashes_cons_head :
    ∀ (c : Char) (l : List Char), ∃ t, collapseSlashes (c :: l) = c :: t
  | _, [] => ⟨[], rfl⟩
  | c, b :: l => by
    by_cases h : c = '/' ∧ b = '/'
    · obtain ⟨hc, hb⟩ := h
      subst hc; subst hb
      obtain ⟨t, ht⟩ := collapseSlashes_cons_head '/' l
      refine ⟨t, ?_⟩
      rw [show collapseSlashes ('/' :: '/' :: l) = collapseSlashes ('/' :: l) by
        simp [collapseSlashes]]
      exact ht
    · exact ⟨collapseSlashes (b :: l), by simp [collapseSlashes, h]⟩

theorem collapseSlashes_cons (c : Char) (l : List Char)
    (h : c ≠ '/' ∨ l.head? ≠ some '/') :
    collapseSlashes (c :: l) = c :: collapseSlashes l := by
  cases l with
  | nil => rfl
  | cons b t =>
    have hb : ¬(c = '/' ∧ b = '/') := by
      rcases h with h | h
      · exact fun hc => h hc.1
      · exact fun hc => h (by simp [hc.2])
    simp [collapseSlashes, hb]

theorem dropWhile_self (p : Char → Bool) (l : List Char) :
    (l.dropWhile p).dropWhile p = l.dropWhile p := by
  induction l with
  | nil => rfl
  | cons c t ih =>
    by_cases h : p c
    · simp [List.dropWhile_cons, h, ih]
    · simp [List.dropWhile_cons, h]

theorem collapseSlashes_slash_cons (l : List Char) :
    collapseSlashes ('/' :: l)
      = '/' :: (collapseSlashes l).dropWhile (fun c => c = '/') := by
  induction l with
  | nil => rfl
  | cons b t ih =>
    by_cases hb : b = '/'
    · subst hb
      have h2 : collapseSlashes ('/' :: '/' :: t) = collapseSlashes ('/' :: t) := by
        simp [collapseSlashes]
      rw [h2, ih]
      simp [List.dropWhile_cons, dropWhile_self]
    · have h2 : collapseSlashes ('/' :: b :: t) = '/' :: collapseSlashes (b :: t) := by
        simp [collapseSlashes, hb]
      obtain ⟨u, hu⟩ := collapseSlashes_cons_head b t
      rw [h2, hu]
      simp [List.dropWhile_cons, hb]

theorem chain'_slashSep_collapseSlashes :
    ∀ l : List Char, List.Chain' SlashSep (collapseSlashes l)
  | [] => List.chain'_nil
  | [c] => List.chain'_singleton c
  | a :: b :: l => by
    by_cases h : a = '/' ∧ b = '/'
    · rw [show collapseSlashes (a :: b :: l) = collapseSlashes (b :: l) by
        simp [collapseSlashes, h]]
      exact chain'_slashSep_collapseSlashes (b :: l)
    · rw [show collapseSlashes (a :: b :: l) = a :: collapseSlashes (b :: l) by
        simp [collapseSlashes, h]]
      obtain ⟨t, ht⟩ := collapseSlashes_cons_head b l
      rw [ht]
      rw [List.chain'_cons]
      refine ⟨fun hc => h hc, ?_⟩
      have := chain'_slashSep_collapseSlashes (b :: l)
      rwa [ht] at this

theorem head?_dropWhile_slash (l : List Char) :
    (l.dropWhile (fun c => c = '/')).head? ≠ some '/' := by
  induction l with
  | nil => simp
  | cons c t ih =>
    by_cases h : c = '/'
    · simpa [List.dropWhile_cons, h] using ih
    · simp [List.dropWhile_cons, h]

theorem dropWhile_of_head_ne (l : List Char) (h : l.head? ≠ some '/') :
    l.dropWhile (fun c => c = '/') = l := by
  cases l with
  | nil => rfl
  | cons c t =>
    have : c ≠ '/' := fun hc => h (by simp [hc])
    simp [List.dropWhile_cons, this]

/-- The heart of the `buildRoutePath` / spec-normalizer agreement, at the
level of character lists: prepend-then-collapse-then-strip-trailing equals
collapse-then-trim-then-prepend. -/
theorem spec_strip_eq_code_trim (l : List Char) :
    (if collapseSlashes ('/' :: l) = ['/'] then ['/']
     else if (collapseSlashes ('/' :: l)).getLast? = some '/' then
       (collapseSlashes ('/' :: l)).dropLast
     else collapseSlashes ('/' :: l))
      = '/' :: trimSlashes (collapseSlashes l) := by
  rw [collapseSlashes_slash_cons]
  set D := (collapseSlashes l).dropWhile (fun c => c = '/') with hD
  have hNDD : List.Chain' SlashSep D :=
    (chain'_slashSep_collapseSlashes l).suffix (List.dropWhile_suffix _)
  have htrim : trimSlashes (collapseSlashes l)
      = (D.reverse.dropWhile (fun c => c = '/')).reverse := rfl
  rcases hDcases : D with _ | ⟨d, t⟩
  · simp [htrim, hDcases]
  · have hne : ('/' :: D) ≠ ['/'] := by simp [hDcases]
    rw [← hDcases]
    rw [if_neg (hDcases ▸ hne)]
    have hlast : ('/' :: D).getLast? = D.getLast? := by
      rw [hDcases]; exact List.getLast?_cons_cons
    by_cases hL : D.getLast? = some '/'
    · rw [hlast, if_pos hL]
      -- D ends in '/'; peel it off via the reverse.
      have hrevhead : D.reverse.head? = some '/' := by
        rw [List.head?_reverse]; exact hL
      rcases hrev : D.reverse with _ | ⟨x, r⟩
      · simp [hrev] at hrevhead
      · have hx : x = '/' := by simp [hrev] at hrevhead; exact hrevhead
        subst hx
        have hNDrev : List.Chain' SlashSep D.reverse := by
          rw [List.chain'_reverse]
          exact hNDD.imp (fun a b hab hba => hab ⟨hba.2, hba.1⟩)
        have hrhead : r.head? ≠ some '/' := by
          rw [hrev] at hNDrev
          cases r with
          | nil => simp
          | cons y s =>
            rw [List.chain'_cons] at hNDrev
            have hys : ¬('/' = '/' ∧ y = '/') := hNDrev.1
            intro hy
            exact hys ⟨rfl, by simpa using hy⟩
        have hDeq : D = r.reverse ++ ['/'] := by
          have := congrArg List.reverse hrev
          simpa using this
        have hdropLast : D.dropLast = r.reverse := by
          rw [hDeq]; exact List.dropLast_concat
        have hdw : D.reverse.dropWhile (fun c => c = '/') = r := by
          rw [hrev, List.dropWhile_cons]
          simp only [decide_eq_true_eq, if_pos rfl]
          exact dropWhile_of_head_ne r hrhead
        rw [htrim, hdw]
        have hdl : ('/' :: D).dropLast = '/' :: D.dropLast := by
          rw [hDcases]; rfl
        rw [hdl, hdropLast]
    · rw [hlast, if_neg hL]
      have hrevhead : D.reverse.head? ≠ some '/' := by
        rw [List.head?_reverse]; exact hL
      rw [htrim, dropWhile_of_head_ne _ hrevhead]
      simp

theorem norm_eq_aux (j : String) :
    (if ("/" ++ String.mk (trimSlashes (collapseSlashes j.data)) : String) = ""
       then ("/" : String)
       else "/" ++ String.mk (trimSlashes (collapseSlashes j.data)))
  = (if String.mk (collapseSlashes ("/" ++ j).data) = "/" then "/"
     else if (String.mk (collapseSlashes ("/" ++ j).data)).data.getLast? = some '/'
       then String.mk ((String.mk (collapseSlashes ("/" ++ j).data)).data.dropLast)
       else String.mk (collapseSlashes ("/" ++ j).data)) := by
  have hdata : ("/" ++ j).data = '/' :: j.data := by simp [String.data_append]
  rw [hdata]
  set C := collapseSlashes ('/' :: j.data) with hC
  set T := trimSlashes (collapseSlashes j.data) with hT
  have hcore := spec_strip_eq_code_trim j.data
  rw [← hC, ← hT] at hcore
  have happ : ("/" ++ String.mk T : String) = String.mk ('/' :: T) := by
    apply String.ext
    simp [String.data_append]
  rw [happ]
  have hne : String.mk ('/' :: T) ≠ "" := by
    intro h
    exact absurd (congrArg String.data h) (by simp)
  rw [if_neg hne]
  by_cases h1 : C = ['/']
  · rw [if_pos (show String.mk C = "/" by rw [h1])]
    rw [if_pos h1] at hcore
    have hT0 : T = [] := by simpa using hcore.symm
    rw [hT0]
  · rw [if_neg (show ¬(String.mk C = "/") from fun hc => h1 (congrArg String.data hc))]
    by_cases h2 : C.getLast? = some '/'
    · rw [if_pos (show (String.mk C).data.getLast? = some '/' from h2)]
      rw [if_neg h1, if_pos h2] at hcore
      apply String.ext
      show '/' :: T = C.dropLast
      exact hcore.symm
    · rw [if_neg (show ¬((String.mk C).data.getLast? = some '/') from h2)]
      rw [if_neg h1, if_neg h2] at hcore
      apply String.ext
      show '/' :: T = C
      exact hcore.symm

theorem code_eq_mk (j : String) :
    (if ("/" ++ String.mk (trimSlashes (collapseSlashes j.data)) : String) = ""
       then ("/" : String)
       else "/" ++ String.mk (trimSlashes (collapseSlashes j.data)))
    = String.mk ('/' :: trimSlashes (collapseSlashes j.data)) := by
  have happ : ("/" ++ String.mk (trimSlashes (collapseSlashes j.data)) : String)
      = String.mk ('/' :: trimSlashes (collapseSlashes j.data)) := by
    apply String.ext
    simp [String.data_append]
  rw [happ]
  exact if_neg (fun h => absurd (congrArg String.data h) (by simp))

/-- The value of `buildRoutePath`, in closed form. -/
theorem buildRoutePath_eq_mk (pre basePath routePath : Option String) :
    buildRoutePath pre basePath routePath
      = String.mk ('/' :: trimSlashes (collapseSlashes
          (String.intercalate "/"
            (([pre, basePath, routePath].filterMap id).filter (fun s => s ≠ ""))).data)) := by
  unfold buildRoutePath
  exact code_eq_mk _

theorem hasDoubleSlash_eq_false_of_chain' :
    ∀ l : List Char, List.Chain' SlashSep l → hasDoubleSlash l = false
  | [] , _ => rfl
  | [_], _ => rfl
  | a :: b :: l, h => by
    rw [List.chain'_cons] at h
    have hrec := hasDoubleSlash_eq_false_of_chain' (b :: l) h.2
    simp only [hasDoubleSlash, hrec, Bool.or_false]
    simp only [Bool.and_eq_false_iff, decide_eq_false_iff_not]
    by_cases ha : a = '/'
    · exact Or.inr (fun hb => h.1 ⟨ha, hb⟩)
    · exact Or.inl ha

/-- Every `buildRoutePath` result satisfies the path invariant: non-empty,
leading `'/'`, no doubled slash, no trailing slash unless exactly `"/"`. -/
theorem pathWF_buildRoutePath (pre basePath routePath : Option String) :
    pathWF (buildRoutePath pre basePath routePath) := by
  rw [buildRoutePath_eq_mk]
  set l := (String.intercalate "/"
    (([pre, basePath, routePath].filterMap id).filter (fun s => s ≠ ""))).data with hl
  set D := (collapseSlashes l).dropWhile (fun c => c = '/') with hD
  have hT : trimSlashes (collapseSlashes l)
      = (D.reverse.dropWhile (fun c => c = '/')).reverse := rfl
  set T := (D.reverse.dropWhile (fun c => c = '/')).reverse with hTT
  have hTpre : T <+: D := by
    have h2 := List.reverse_prefix.mpr (List.dropWhile_suffix (l := D.reverse)
      (fun c => c = '/'))
    rwa [List.reverse_reverse] at h2
  have hNDD : List.Chain' SlashSep D :=
    (chain'_slashSep_collapseSlashes l).suffix (List.dropWhile_suffix _)
  have hNDT : List.Chain' SlashSep T := hNDD.prefix hTpre
  have hTheadD : T.head? ≠ some '/' := by
    cases hT0 : T with
    | nil => simp
    | cons e t' =>
      have hDhead : D.head? = some e := by
        obtain ⟨s, hs⟩ := hTpre
        rw [hT0] at hs
        rw [← hs]
        rfl
      have := head?_dropWhile_slash (collapseSlashes l)
      rw [← hD] at this
      rw [hDhead] at this
      simp only [List.head?_cons]
      intro hcon
      exact this (by rw [← hcon])
  have hTlast : T.getLast? ≠ some '/' := by
    have : T.getLast? = T.reverse.head? := (List.head?_reverse T).symm
    rw [this, hTT, List.reverse_reverse]
    exact head?_dropWhile_slash D.reverse
  have hchain : List.Chain' SlashSep ('/' :: T) := by
    rw [List.chain'_cons']
    refine ⟨?_, hNDT⟩
    intro y hy hcon
    exact hTheadD (by rw [hy]; exact congrArg some hcon.2)
  rw [hT]
  refine ⟨by simp, by simp, hasDoubleSlash_eq_false_of_chain' _ hchain, ?_⟩
  intro hne
  cases hT0 : T with
  | nil =>
    exfalso
    apply hne
    apply String.ext
    simp [hT0]
  | cons e t' =>
    show ('/' :: e :: t').getLast? ≠ some '/'
    rw [List.getLast?_cons_cons, ← hT0]
    exact hTlast

/-- `buildRoutePath` agrees with the spec's normalizer on every input. -/
theorem buildRoutePath_eq_normalizeSpec (pre basePath routePath : Option String) :
    buildRoutePath pre basePath routePath = normalizeSpec pre basePath routePath := by
  unfold buildRoutePath normalizeSpec
  exact norm_eq_aux
    (String.intercalate "/" (([pre, basePath, routePath].filterMap id).filter (fun s => s ≠ "")))

/-! ### Walker unfolding lemmas -/

theorem processImportsF_nil (g : Graph) (pre : Option String) (fuel : Nat)
    (st : Option (RouteMap × List Nat)) :
    processImportsF g pre fuel [] st = st := rfl

theorem processImportsF_cons_some (g : Graph) (pre : Option String) (fuel : Nat)
    (e : ImportEntry) (rest : List ImportEntry) (mp₀ : RouteMap) (vis₀ : List Nat) :
    processImportsF g pre fuel (e :: rest) (some (mp₀, vis₀))
      = processImportsF g pre fuel rest
          (match importTarget e with
           | none => some (mp₀, vis₀)
           | some inner => processModuleF g pre fuel (some inner) mp₀ vis₀) := rfl

theorem processImportsF_none (g : Graph) (pre : Option String) (fuel : Nat)
    (entries : List ImportEntry) :
    processImportsF g pre fuel entries none = none := by
  induction entries with
  | nil => rfl
  | cons e rest ih => exact ih

theorem processModuleF_succ (g : Graph) (pre : Option String) (fuel : Nat)
    (i : Nat) (m : RouteMap) (vis : List Nat) (h : i ∉ vis) :
    processModuleF g pre (fuel + 1) (some i) m vis
      = match lookupModule g i with
        | none => some (m, i :: vis)
        | some d =>
          match d.controllers with
          | .error _ => some (m, i :: vis)
          | .ok ctrls =>
            match processControllers pre ctrls m with
            | (m₁, true) => some (m₁, i :: vis)
            | (m₁, false) =>
              match d.imports with
              | .error _ => some (m₁, i :: vis)
              | .ok entries =>
                processImportsF g pre fuel entries (some (m₁, i :: vis)) := by
  simp only [processModuleF, if_neg h]
  rfl

/-! ### Visited-set lemmas: the walk only extends the visited list, and
never records a module twice -/

theorem processImportsF_visited (g : Graph) (pre : Option String) (fuel : Nat)
    (hIH : ∀ i mp vis mp' vis',
      processModuleF g pre fuel (some i) mp vis = some (mp', vis') →
      vis ⊆ vis' ∧ (vis.Nodup → vis'.Nodup)) :
    ∀ (entries : List ImportEntry) (mp₀ : RouteMap) (vis₀ : List Nat)
      (mp' : RouteMap) (vis' : List Nat),
      processImportsF g pre fuel entries (some (mp₀, vis₀)) = some (mp', vis') →
      vis₀ ⊆ vis' ∧ (vis₀.Nodup → vis'.Nodup)
  | [], mp₀, vis₀, mp', vis', h => by
    rw [processImportsF_nil] at h
    injection h with h1
    injection h1 with hmp hvis
    subst hvis
    exact ⟨fun x hx => hx, id⟩
  | e :: rest, mp₀, vis₀, mp', vis', h => by
    cases hit : importTarget e with
    | none =>
      simp only [processImportsF_cons_some, hit] at h
      exact processImportsF_visited g pre fuel hIH rest mp₀ vis₀ mp' vis' h
    | some inner =>
      simp only [processImportsF_cons_some, hit] at h
      cases hpm : processModuleF g pre fuel (some inner) mp₀ vis₀ with
      | none =>
        rw [hpm, processImportsF_none] at h
        cases h
      | some r =>
        obtain ⟨m₂, vis₂⟩ := r
        rw [hpm] at h
        have h₁ := hIH inner mp₀ vis₀ m₂ vis₂ hpm
        have h₂ := processImportsF_visited g pre fuel hIH rest m₂ vis₂ mp' vis' h
        exact ⟨h₁.1.trans h₂.1, fun hn => h₂.2 (h₁.2 hn)⟩

theorem processModuleF_visited (g : Graph) (pre : Option String) :
    ∀ (fuel : Nat) (m : Option Nat) (mp : RouteMap) (vis : List Nat)
      (mp' : RouteMap) (vis' : List Nat),
      processModuleF g pre fuel m mp vis = some (mp', vis') →
      vis ⊆ vis' ∧ (vis.Nodup → vis'.Nodup)
  | 0, _, _, _, _, _, h => by cases h
  | fuel + 1, none, mp, vis, mp', vis', h => by
    injection h with h1
    injection h1 with hmp hvis
    subst hvis
    exact ⟨fun x hx => hx, id⟩
  | fuel + 1, some i, mp, vis, mp', vis', h => by
    by_cases hv : i ∈ vis
    · simp only [processModuleF, if_pos hv] at h
      injection h with h1
      injection h1 with hmp hvis
      subst hvis
      exact ⟨fun x hx => hx, id⟩
    · have hstep : vis ⊆ i :: vis ∧ (vis.Nodup → (i :: vis).Nodup) :=
        ⟨List.subset_cons_self i vis, fun hn => List.nodup_cons.mpr ⟨hv, hn⟩⟩
      rw [processModuleF_succ g pre fuel i mp vis hv] at h
      cases hlk : lookupModule g i with
      | none =>
        simp only [hlk] at h
        injection h with h1
        injection h1 with hmp hvis
        subst hvis
        exact hstep
      | some d =>
        simp only [hlk] at h
        cases hc : d.controllers with
        | error err =>
          simp only [hc] at h
          injection h with h1
          injection h1 with hmp hvis
          subst hvis
          exact hstep
        | ok ctrls =>
          simp only [hc] at h
          rcases hpc : processControllers pre ctrls mp with ⟨m₁, flag⟩
          cases flag
          · simp only [hpc] at h
            cases him : d.imports with
            | error err =>
              simp only [him] at h
              injection h with h1
              injection h1 with hmp hvis
              subst hvis
              exact hstep
            | ok entries =>
              simp only [him] at h
              have hrec := processImportsF_visited g pre fuel
                (fun i' mp₀ vis₀ mp₁ vis₁ hh =>
                  processModuleF_visited g pre fuel (some i') mp₀ vis₀ mp₁ vis₁ hh)
                entries m₁ (i :: vis) mp' vis' h
              exact ⟨hstep.1.trans hrec.1, fun hn => hrec.2 (hstep.2 hn)⟩
          · simp only [hpc] at h
            injection h with h1
            injection h1 with hmp hvis
            subst hvis
            exact hstep

/-! ### Fuel sufficiency: the recursion depth is bounded by the number of
distinct modules, so the source recursion terminates on every finite
graph -/

theorem mem_domainIds_of_lookup (g : Graph) (i : Nat) (d : ModuleData)
    (h : lookupModule g i = some d) : i ∈ domainIds g := by
  unfold lookupModule at h
  cases hf : g.find? (fun p => p.1 = i) with
  | none => rw [hf] at h; cases h
  | some p =>
    have hp := List.find?_some hf
    have hmem := List.mem_of_find?_eq_some hf
    have hpi : p.1 = i := by simpa using hp
    unfold domainIds
    rw [List.mem_dedup]
    exact hpi ▸ List.mem_map_of_mem Prod.fst hmem

theorem unvisitedCount_le_of_subset (g : Graph) (vis vis' : List Nat)
    (h : vis ⊆ vis') : unvisitedCount g vis' ≤ unvisitedCount g vis := by
  unfold unvisitedCount
  refine List.Sublist.length_le (List.monotone_filter_right _ ?_)
  intro a ha
  simp only [decide_eq_true_eq] at ha ⊢
  exact fun hmem => ha (h hmem)

theorem unvisitedCount_lt (g : Graph) (i : Nat) (vis : List Nat)
    (hdom : i ∈ domainIds g) (hv : i ∉ vis) :
    unvisitedCount g (i :: vis) < unvisitedCount g vis := by
  unfold unvisitedCount
  have hsub : List.Sublist ((domainIds g).filter (fun j => j ∉ i :: vis))
      ((domainIds g).filter (fun j => j ∉ vis)) := by
    refine List.monotone_filter_right _ ?_
    intro a ha
    simp only [decide_eq_true_eq, List.mem_cons, not_or] at ha ⊢
    exact ha.2
  refine Nat.lt_of_le_of_ne hsub.length_le ?_
  intro heq
  have heqlist := hsub.eq_of_length heq
  have hmem : i ∈ (domainIds g).filter (fun j => j ∉ vis) := by
    rw [List.mem_filter]
    exact ⟨hdom, by simpa using hv⟩
  rw [← heqlist, List.mem_filter] at hmem
  simp at hmem

theorem processImportsF_isSome (g : Graph) (pre : Option String) (fuel : Nat)
    (hIH : ∀ (m : Option Nat) (mp : RouteMap) (vis : List Nat),
      unvisitedCount g vis < fuel →
      ∃ r, processModuleF g pre fuel m mp vis = some r) :
    ∀ (entries : List ImportEntry) (mp₀ : RouteMap) (vis₀ : List Nat),
      unvisitedCount g vis₀ < fuel →
      ∃ r, processImportsF g pre fuel entries (some (mp₀, vis₀)) = some r
  | [], mp₀, vis₀, _ => ⟨(mp₀, vis₀), rfl⟩
  | e :: rest, mp₀, vis₀, h => by
    cases hit : importTarget e with
    | none =>
      obtain ⟨r, hr⟩ := processImportsF_isSome g pre fuel hIH rest mp₀ vis₀ h
      exact ⟨r, by simp only [processImportsF_cons_some, hit]; exact hr⟩
    | some inner =>
      obtain ⟨r, hr⟩ := hIH (some inner) mp₀ vis₀ h
      obtain ⟨m₂, vis₂⟩ := r
      have hsub := (processModuleF_visited g pre fuel (some inner) mp₀ vis₀ m₂ vis₂ hr).1
      have hlt : unvisitedCount g vis₂ < fuel :=
        Nat.lt_of_le_of_lt (unvisitedCount_le_of_subset g vis₀ vis₂ hsub) h
      obtain ⟨r', hr'⟩ := processImportsF_isSome g pre fuel hIH rest m₂ vis₂ hlt
      exact ⟨r', by simp only [processImportsF_cons_some, hit, hr]; exact hr'⟩

theorem processModuleF_isSome (g : Graph) (pre : Option String) :
    ∀ (fuel : Nat) (m : Option Nat) (mp : RouteMap) (vis : List Nat),
      unvisitedCount g vis < fuel →
      ∃ r, processModuleF g pre fuel m mp vis = some r
  | 0, _, _, vis, h => absurd h (Nat.not_lt_zero _)
  | fuel + 1, none, mp, vis, _ => ⟨(mp, vis), rfl⟩
  | fuel + 1, some i, mp, vis, h => by
    by_cases hv : i ∈ vis
    · exact ⟨(mp, vis), by simp [processModuleF, hv]⟩
    · have hgoal := processModuleF_succ g pre fuel i mp vis hv
      cases hlk : lookupModule g i with
      | none =>
        simp only [hlk] at hgoal
        exact ⟨(mp, i :: vis), hgoal⟩
      | some d =>
        simp only [hlk] at hgoal
        cases hc : d.controllers with
        | error err =>
          simp only [hc] at hgoal
          exact ⟨(mp, i :: vis), hgoal⟩
        | ok ctrls =>
          simp only [hc] at hgoal
          rcases hpc : processControllers pre ctrls mp with ⟨m₁, flag⟩
          cases flag
          · simp only [hpc] at hgoal
            cases him : d.imports with
            | error err =>
              simp only [him] at hgoal
              exact ⟨(m₁, i :: vis), hgoal⟩
            | ok entries =>
              simp only [him] at hgoal
              have hdom := mem_domainIds_of_lookup g i d hlk
              have hlt : unvisitedCount g (i :: vis) < fuel :=
                Nat.lt_of_lt_of_le (unvisitedCount_lt g i vis hdom hv)
                  (Nat.lt_succ_iff.mp h)
              obtain ⟨r, hr⟩ := processImportsF_isSome g pre fuel
                (fun m' mp' vis' hh => processModuleF_isSome g pre fuel m' mp' vis' hh)
                entries m₁ (i :: vis) hlt
              exact ⟨r, by rw [hgoal]; exact hr⟩
          · simp only [hpc] at hgoal
            exact ⟨(m₁, i :: vis), hgoal⟩

/-! ### Fuel stability: any fuel at or above the bound gives the same
result -/

theorem processImportsF_fuel_succ (g : Graph) (pre : Option String) (fuel : Nat)
    (hstep : ∀ (m : Option Nat) (mp : RouteMap) (vis : List Nat) r,
      processModuleF g pre fuel m mp vis = some r →
      processModuleF g pre (fuel + 1) m mp vis = some r) :
    ∀ (entries : List ImportEntry) (mp₀ : RouteMap) (vis₀ : List Nat) r,
      processImportsF g pre fuel entries (some (mp₀, vis₀)) = some r →
      processImportsF g pre (fuel + 1) entries (some (mp₀, vis₀)) = some r
  | [], mp₀, vis₀, r, h => h
  | e :: rest, mp₀, vis₀, r, h => by
    cases hit : importTarget e with
    | none =>
      simp only [processImportsF_cons_some, hit] at h ⊢
      exact processImportsF_fuel_succ g pre fuel hstep rest mp₀ vis₀ r h
    | some inner =>
      simp only [processImportsF_cons_some, hit] at h ⊢
      cases hpm : processModuleF g pre fuel (some inner) mp₀ vis₀ with
      | none =>
        rw [hpm, processImportsF_none] at h
        cases h
      | some r₂ =>
        obtain ⟨m₂, vis₂⟩ := r₂
        rw [hpm] at h
        rw [hstep (some inner) mp₀ vis₀ (m₂, vis₂) hpm]
        exact processImportsF_fuel_succ g pre fuel hstep rest m₂ vis₂ r h

theorem processModuleF_fuel_succ (g : Graph) (pre : Option String) :
    ∀ (fuel : Nat) (m : Option Nat) (mp : RouteMap) (vis : List Nat) r,
      processModuleF g pre fuel m mp vis = some r →
      processModuleF g pre (fuel + 1) m mp vis = some r
  | 0, _, _, _, _, h => by cases h
  | fuel + 1, none, mp, vis, r, h => h
  | fuel + 1, some i, mp, vis, r, h => by
    by_cases hv : i ∈ vis
    · simp only [processModuleF, if_pos hv] at h ⊢
      exact h
    · rw [processModuleF_succ g pre fuel i mp vis hv] at h
      have hgoal := processModuleF_succ g pre (fuel + 1) i mp vis hv
      cases hlk : lookupModule g i with
      | none =>
        simp only [hlk] at h hgoal
        rw [hgoal]; exact h
      | some d =>
        simp only [hlk] at h hgoal
        cases hc : d.controllers with
        | error err =>
          simp only [hc] at h hgoal
          rw [hgoal]; exact h
        | ok ctrls =>
          simp only [hc] at h hgoal
          rcases hpc : processControllers pre ctrls mp with ⟨m₁, flag⟩
          cases flag
          · simp only [hpc] at h hgoal
            cases him : d.imports with
            | error err =>
              simp only [him] at h hgoal
              rw [hgoal]; exact h
            | ok entries =>
              simp only [him] at h hgoal
              rw [hgoal]
              exact processImportsF_fuel_succ g pre fuel
                (fun m' mp' vis' r' hh =>
                  processModuleF_fuel_succ g pre fuel m' mp' vis' r' hh)
                entries m₁ (i :: vis) r h
          · simp only [hpc] at h hgoal
            rw [hgoal]; exact h

theorem processModuleF_fuel_mono (g : Graph) (pre : Option String)
    (fuel fuel' : Nat) (h : fuel ≤ fuel') (m : Option Nat) (mp : RouteMap)
    (vis : List Nat) (r : RouteMap × List Nat)
    (hr : processModuleF g pre fuel m mp vis = some r) :
    processModuleF g pre fuel' m mp vis = some r := by
  induction h with
  | refl => exact hr
  | step h' ih => exact processModuleF_fuel_succ g pre _ m mp vis r ih

/-- The walk from a fresh state always completes with the default fuel. -/
theorem extractRoutesFromModule_spec (g : Graph) (entry : Option Nat)
    (pre : Option String) :
    ∃ r, processModuleF g pre (defaultFuel g) entry [] [] = some r ∧
      extractRoutesFromModule g entry pre = r.1 := by
  obtain ⟨r, hr⟩ := processModuleF_isSome g pre (defaultFuel g) entry [] []
    (by unfold defaultFuel; omega)
  exact ⟨r, hr, by unfold extractRoutesFromModule; rw [hr]⟩

/-! ### Route-map lemmas -/

theorem mem_setEntry (m : RouteMap) (k : String) (v : List RouteInfo)
    (kv : String × List RouteInfo) (h : kv ∈ setEntry m k v) :
    kv ∈ m ∨ kv = (k, v) := by
  unfold setEntry at h
  split at h
  · obtain ⟨p, hp, he⟩ := List.mem_map.mp h
    by_cases hpk : p.1 = k
    · rw [if_pos hpk] at he
      exact Or.inr he.symm
    · rw [if_neg hpk] at he
      exact Or.inl (he ▸ hp)
  · rcases List.mem_append.mp h with h1 | h1
    · exact Or.inl h1
    · exact Or.inr (by simpa using h1)

theorem lookupEntry_setEntry (k : String) (v : List RouteInfo) :
    ∀ m : RouteMap, lookupEntry (setEntry m k v) k = some v := by
  intro m
  induction m with
  | nil => simp [setEntry, lookupEntry, List.find?]
  | cons p t ih =>
    by_cases hpk : p.1 = k
    · have hany : (p :: t).any (fun q => q.1 = k) = true := by
        simp [List.any_cons, hpk]
      unfold setEntry
      rw [if_pos hany]
      unfold lookupEntry
      simp only [List.map_cons, if_pos hpk]
      rw [List.find?_cons_of_pos _ (by simp)]
      rfl
    · unfold setEntry
      by_cases hany : (p :: t).any (fun q => q.1 = k) = true
      · rw [if_pos hany]
        have hanyt : t.any (fun q => q.1 = k) = true := by
          rcases List.any_eq_true.mp hany with ⟨q, hq, hqk⟩
          rcases List.mem_cons.mp hq with h1 | h1
          · exact absurd (of_decide_eq_true (h1 ▸ hqk)) hpk
          · exact List.any_eq_true.mpr ⟨q, h1, hqk⟩
        unfold lookupEntry
        simp only [List.map_cons, if_neg hpk]
        rw [List.find?_cons_of_neg _ (by simpa using hpk)]
        have := ih
        unfold setEntry at this
        rw [if_pos hanyt] at this
        unfold lookupEntry at this
        exact this
      · rw [if_neg hany]
        have hanyt : ¬(t.any (fun q => q.1 = k) = true) := by
          intro hc
          rcases List.any_eq_true.mp hc with ⟨q, hq, hqk⟩
          exact hany (List.any_eq_true.mpr ⟨q, List.mem_cons_of_mem p hq, hqk⟩)
        unfold lookupEntry
        rw [show (p :: t) ++ [(k, v)] = p :: (t ++ [(k, v)]) from rfl]
        rw [List.find?_cons_of_neg _ (by simpa using hpk)]
        have := ih
        unfold setEntry at this
        rw [if_neg hanyt] at this
        unfold lookupEntry at this
        exact this

/-! ### Invariants on the aggregated route map, preserved by the walk -/

theorem processImportsF_preserves (P : RouteMap → Prop) (g : Graph)
    (pre : Option String) (fuel : Nat)
    (hIH : ∀ i mp vis mp' vis',
      processModuleF g pre fuel (some i) mp vis = some (mp', vis') → P mp → P mp') :
    ∀ (entries : List ImportEntry) (mp₀ : RouteMap) (vis₀ : List Nat)
      (mp' : RouteMap) (vis' : List Nat),
      processImportsF g pre fuel entries (some (mp₀, vis₀)) = some (mp', vis') →
      P mp₀ → P mp'
  | [], mp₀, vis₀, mp', vis', h, hP => by
    rw [processImportsF_nil] at h
    injection h with h1
    injection h1 with hmp hvis
    exact hmp ▸ hP
  | e :: rest, mp₀, vis₀, mp', vis', h, hP => by
    cases hit : importTarget e with
    | none =>
      simp only [processImportsF_cons_some, hit] at h
      exact processImportsF_preserves P g pre fuel hIH rest mp₀ vis₀ mp' vis' h hP
    | some inner =>
      simp only [processImportsF_cons_some, hit] at h
      cases hpm : processModuleF g pre fuel (some inner) mp₀ vis₀ with
      | none =>
        rw [hpm, processImportsF_none] at h
        cases h
      | some r =>
        obtain ⟨m₂, vis₂⟩ := r
        rw [hpm] at h
        exact processImportsF_preserves P g pre fuel hIH rest m₂ vis₂ mp' vis' h
          (hIH inner mp₀ vis₀ m₂ vis₂ hpm hP)

theorem processModuleF_preserves (P : RouteMap → Prop) (g : Graph)
    (pre : Option String)
    (hP : ∀ cs mp, P mp → P (processControllers pre cs mp).1) :
    ∀ (fuel : Nat) (m : Option Nat) (mp : RouteMap) (vis : List Nat)
      (mp' : RouteMap) (vis' : List Nat),
      processModuleF g pre fuel m mp vis = some (mp', vis') → P mp → P mp'
  | 0, _, _, _, _, _, h, _ => by cases h
  | fuel + 1, none, mp, vis, mp', vis', h, hPm => by
    injection h with h1
    injection h1 with hmp hvis
    exact hmp ▸ hPm
  | fuel + 1, some i, mp, vis, mp', vis', h, hPm => by
    by_cases hv : i ∈ vis
    · simp only [processModuleF, if_pos hv] at h
      injection h with h1
      injection h1 with hmp hvis
      exact hmp ▸ hPm
    · rw [processModuleF_succ g pre fuel i mp vis hv] at h
      cases hlk : lookupModule g i with
      | none =>
        simp only [hlk] at h
        injection h with h1
        injection h1 with hmp hvis
        exact hmp ▸ hPm
      | some d =>
        simp only [hlk] at h
        cases hc : d.controllers with
        | error err =>
          simp only [hc] at h
          injection h with h1
          injection h1 with hmp hvis
          exact hmp ▸ hPm
        | ok ctrls =>
          simp only [hc] at h
          rcases hpc : processControllers pre ctrls mp with ⟨m₁, flag⟩
          have hPm₁ : P m₁ := by
            have := hP ctrls mp hPm
            rw [hpc] at this
            exact this
          cases flag
          · simp only [hpc] at h
            cases him : d.imports with
            | error err =>
              simp only [him] at h
              injection h with h1
              injection h1 with hmp hvis
              exact hmp ▸ hPm₁
            | ok entries =>
              simp only [him] at h
              exact processImportsF_preserves P g pre fuel
                (fun i' mp₀ vis₀ mp₁ vis₁ hh =>
                  processModuleF_preserves P g pre hP fuel (some i') mp₀ vis₀ mp₁ vis₁ hh)
                entries m₁ (i :: vis) mp' vis' h hPm₁
          · simp only [hpc] at h
            injection h with h1
            injection h1 with hmp hvis
            exact hmp ▸ hPm₁

/-! ### Extraction lemmas -/

theorem pathWF_of_extract_ok (c : Ctrl) (pre : Option String)
    (routes : List RouteInfo) (h : extractControllerRoutes c pre = .ok routes) :
    ∀ r ∈ routes, pathWF r.path := by
  unfold extractControllerRoutes at h
  cases hb : c.basePathMeta with
  | error e => rw [hb] at h; cases h
  | ok bp =>
    rw [hb] at h
    injection h with h1
    intro r hr
    rw [← h1] at hr
    obtain ⟨mem, hmem, hex⟩ := List.mem_filterMap.mp hr
    unfold extractMember at hex
    split at hex
    · injection hex with h2
      rw [← h2]
      exact pathWF_buildRoutePath pre (some (bp.getD "")) (some _)
    · cases hex

theorem processControllers_preserves_nonempty (pre : Option String) :
    ∀ (cs : List CtrlEntry) (mp : RouteMap),
      (∀ kv ∈ mp, kv.2 ≠ []) → ∀ kv ∈ (processControllers pre cs mp).1, kv.2 ≠ []
  | [], _, hmp => hmp
  | .nonFn :: rest, mp, hmp => processControllers_preserves_nonempty pre rest mp hmp
  | .ctrl c :: rest, mp, hmp => by
    cases hec : extractControllerRoutes c pre with
    | error err =>
      simp only [processControllers, hec]
      exact hmp
    | ok routes =>
      by_cases hlen : routes.length > 0
      · have hmp2 : ∀ kv ∈ setEntry mp c.name routes, kv.2 ≠ [] := by
          intro kv hkv
          rcases mem_setEntry mp c.name routes kv hkv with h1 | h1
          · exact hmp kv h1
          · rw [h1]
            exact List.ne_nil_of_length_pos hlen
        have hrec := processControllers_preserves_nonempty pre rest
          (setEntry mp c.name routes) hmp2
        simp only [processControllers, hec, if_pos hlen]
        exact hrec
      · have hrec := processControllers_preserves_nonempty pre rest mp hmp
        simp only [processControllers, hec, if_neg hlen]
        exact hrec

theorem processControllers_preserves_wf (pre : Option String) :
    ∀ (cs : List CtrlEntry) (mp : RouteMap),
      (∀ kv ∈ mp, ∀ r ∈ kv.2, pathWF r.path) →
      ∀ kv ∈ (processControllers pre cs mp).1, ∀ r ∈ kv.2, pathWF r.path
  | [], _, hmp => hmp
  | .nonFn :: rest, mp, hmp => processControllers_preserves_wf pre rest mp hmp
  | .ctrl c :: rest, mp, hmp => by
    cases hec : extractControllerRoutes c pre with
    | error err =>
      simp only [processControllers, hec]
      exact hmp
    | ok routes =>
      by_cases hlen : routes.length > 0
      · have hmp2 : ∀ kv ∈ setEntry mp c.name routes, ∀ r ∈ kv.2, pathWF r.path := by
          intro kv hkv
          rcases mem_setEntry mp c.name routes kv hkv with h1 | h1
          · exact hmp kv h1
          · rw [h1]
            intro r hr
            exact pathWF_of_extract_ok c pre routes hec r hr
        have hrec := processControllers_preserves_wf pre rest
          (setEntry mp c.name routes) hmp2
        simp only [processControllers, hec, if_pos hlen]
        exact hrec
      · have hrec := processControllers_preserves_wf pre rest mp hmp
        simp only [processControllers, hec, if_neg hlen]
        exact hrec

theorem extractRoutesFromModule_values_nonempty (g : Graph) (entry : Option Nat)
    (pre : Option String) :
    ∀ kv ∈ extractRoutesFromModule g entry pre, kv.2 ≠ [] := by
  obtain ⟨⟨mp, vis⟩, hpm, heq⟩ := extractRoutesFromModule_spec g entry pre
  intro kv hkv
  rw [heq] at hkv
  exact processModuleF_preserves (fun m => ∀ kv ∈ m, kv.2 ≠ []) g pre
    (processControllers_preserves_nonempty pre) (defaultFuel g) entry [] [] mp vis hpm
    (by intro kv h; cases h) kv hkv

theorem extractRoutesFromModule_paths_wf (g : Graph) (entry : Option Nat)
    (pre : Option String) :
    ∀ kv ∈ extractRoutesFromModule g entry pre, ∀ r ∈ kv.2, pathWF r.path := by
  obtain ⟨⟨mp, vis⟩, hpm, heq⟩ := extractRoutesFromModule_spec g entry pre
  intro kv hkv
  rw [heq] at hkv
  exact processModuleF_preserves (fun m => ∀ kv ∈ m, ∀ r ∈ kv.2, pathWF r.path) g pre
    (processControllers_preserves_wf pre) (defaultFuel g) entry [] [] mp vis hpm
    (by intro kv h; cases h) kv hkv

/-! ### Member-level extraction characterization -/

theorem extractMember_isSome_iff (pre : Option String) (bp n : String) (mem : Member) :
    (∃ r, extractMember pre bp n mem = some r) ↔
      ((∃ p, mem.pathMeta = Except.ok (some p)) ∧
       (∃ v, mem.methodMeta = Except.ok (some v))) := by
  rcases hp : mem.pathMeta with ep | op
  · simp only [extractMember, hp]
    constructor
    · rintro ⟨r, hr⟩
      cases hr
    · rintro ⟨⟨p2, hp2⟩, -⟩
      simp at hp2
  · rcases op with - | p
    · simp only [extractMember, hp]
      constructor
      · rintro ⟨r, hr⟩
        cases hr
      · rintro ⟨⟨p2, hp2⟩, -⟩
        simp at hp2
    · rcases hm : mem.methodMeta with em | ov
      · simp only [extractMember, hp, hm]
        constructor
        · rintro ⟨r, hr⟩
          cases hr
        · rintro ⟨-, ⟨v2, hv2⟩⟩
          simp at hv2
      · rcases ov with - | v
        · simp only [extractMember, hp, hm]
          constructor
          · rintro ⟨r, hr⟩
            cases hr
          · rintro ⟨-, ⟨v2, hv2⟩⟩
            simp at hv2
        · constructor
          · intro _
            exact ⟨⟨p, rfl⟩, ⟨v, rfl⟩⟩
          · intro _
            refine ⟨{ method := normalizeVerb v,
                      path := buildRoutePath pre (some bp) (some p),
                      handler := n ++ "." ++ mem.name }, ?_⟩
            simp only [extractMember, hp, hm]

theorem extractControllerRoutes_skip (pre : Option String) (nm : String)
    (bpo : Option String) (ms₁ ms₂ : List Member) (mem : Member)
    (h : extractMember pre (bpo.getD "") nm mem = none) :
    extractControllerRoutes ⟨nm, .ok bpo, ms₁ ++ mem :: ms₂⟩ pre
      = extractControllerRoutes ⟨nm, .ok bpo, ms₁ ++ ms₂⟩ pre := by
  simp only [extractControllerRoutes]
  congr 1
  rw [List.filterMap_append, List.filterMap_append]
  congr 1
  rw [List.filterMap_cons]
  rw [h]

example : buildRoutePath none none none = "/" := by decide
example : buildRoutePath (some "api/") (some "/v1/") (some "/users") = "/api/v1/users" := by
  decide
example : buildRoutePath (some "") (some "users") (some "") = "/users" := by decide
example : normalizeSpec (some "api/") (some "/v1/") (some "/users") = "/api/v1/users" := by
  decide
example : pathWF "/api/v1/users" := by decide
example : pathWF (buildRoutePath none (some "//a//b//") none) := by decide


/-! ## Claim theorems -/

/-- C1: for every combination of optional prefix, controller base path, and
endpoint path, every RouteRecord produced by route extraction has a path
that is a non-empty string beginning with `'/'`, contains no occurrence of
`"//"`, and has no trailing `'/'` unless the path is exactly `"/"` — both
for the raw normalizer and for every record of every discovery run. -/
theorem C1_route_paths_wellformed :
    (∀ pre basePath routePath : Option String,
      pathWF (buildRoutePath pre basePath routePath)) ∧
    (∀ (g : Graph) (entry : Option Nat) (pre : Option String),
      ∀ kv ∈ extractRoutesFromModule g entry pre, ∀ r ∈ kv.2, pathWF r.path) :=
  ⟨pathWF_buildRoutePath, extractRoutesFromModule_paths_wf⟩

/-- Witness for C1: the `AController` record of the cyclic example graph. -/
theorem C1_route_paths_wellformed_witness :
    (("AController", [RouteInfo.mk "GET" "/a" "AController.getA"])
        ∈ extractRoutesFromModule cycGraph (some 0) none) ∧
    pathWF (RouteInfo.mk "GET" "/a" "AController.getA").path :=
  ⟨by decide,
   C1_route_paths_wellformed.2 cycGraph (some 0) none
     ("AController", [RouteInfo.mk "GET" "/a" "AController.getA"]) (by decide)
     (RouteInfo.mk "GET" "/a" "AController.getA") (by decide)⟩

/-- C2: `buildRoutePath` equals the spec's reference normalizer on every
input, and matches the three quoted examples. -/
theorem C2_buildRoutePath_refines_spec :
    (∀ pre basePath routePath : Option String,
      buildRoutePath pre basePath routePath = normalizeSpec pre basePath routePath) ∧
    buildRoutePath none none none = "/" ∧
    buildRoutePath (some "api/") (some "/v1/") (some "/users") = "/api/v1/users" ∧
    buildRoutePath (some "") (some "users") (some "") = "/users" :=
  ⟨buildRoutePath_eq_normalizeSpec, by decide, by decide, by decide⟩

/-- C3: each distinct module descriptor is processed at most once per run —
the visited list never acquires a duplicate — and in the diamond graph the
shared module 3 appears exactly once in the visit list, its controller
contributed exactly once. -/
theorem C3_modules_processed_once :
    (∀ (g : Graph) (pre : Option String) (fuel : Nat) (m : Option Nat)
       (mp mp' : RouteMap) (vis vis' : List Nat),
       processModuleF g pre fuel m mp vis = some (mp', vis') →
       vis.Nodup → vis'.Nodup) ∧
    processModuleF diamondGraph none (defaultFuel diamondGraph) (some 0) [] []
      = some ([("DController", [RouteInfo.mk "GET" "/d" "DController.getD"])],
              [2, 3, 1, 0]) ∧
    [2, 3, 1, 0].count 3 = 1 :=
  ⟨fun g pre fuel m mp mp' vis vis' h hn =>
      (processModuleF_visited g pre fuel m mp vis mp' vis' h).2 hn,
   by decide, by decide⟩

/-- Witness for C3 at the diamond graph run. -/
theorem C3_modules_processed_once_witness :
    processModuleF diamondGraph none (defaultFuel diamondGraph) (some 0) [] []
      = some ([("DController", [RouteInfo.mk "GET" "/d" "DController.getD"])],
              [2, 3, 1, 0]) ∧
    ([] : List Nat).Nodup ∧ [2, 3, 1, 0].Nodup :=
  ⟨by decide, by decide,
   C3_modules_processed_once.1 diamondGraph none (defaultFuel diamondGraph) (some 0)
     [] [("DController", [RouteInfo.mk "GET" "/d" "DController.getD"])] [] [2, 3, 1, 0]
     (by decide) (by decide)⟩

/-- C4: the recursive walk terminates on every finite module graph — every
fuel at or above `defaultFuel` yields the same `some` result — and the
two-module cycle terminates with each module's controllers discovered
exactly once. -/
theorem C4_walk_terminates :
    (∀ (g : Graph) (pre : Option String) (entry : Option Nat) (fuel : Nat),
       defaultFuel g ≤ fuel →
       processModuleF g pre fuel entry [] []
           = processModuleF g pre (defaultFuel g) entry [] [] ∧
         (processModuleF g pre (defaultFuel g) entry [] []).isSome = true) ∧
    processModuleF cycGraph none (defaultFuel cycGraph) (some 0) [] []
      = some ([("AController", [RouteInfo.mk "GET" "/a" "AController.getA"]),
               ("BController", [RouteInfo.mk "POST" "/b/x" "BController.getB"])],
              [1, 0]) ∧
    [1, 0].count 0 = 1 ∧ [1, 0].count 1 = 1 := by
  refine ⟨?_, by decide, by decide, by decide⟩
  intro g pre entry fuel hf
  obtain ⟨r, hr⟩ := processModuleF_isSome g pre (defaultFuel g) entry [] []
    (by unfold defaultFuel; omega)
  refine ⟨?_, by rw [hr]; rfl⟩
  rw [hr, processModuleF_fuel_mono g pre (defaultFuel g) fuel hf entry [] [] r hr]

/-- Witness for C4 with surplus fuel on the cyclic graph. -/
theorem C4_walk_terminates_witness :
    defaultFuel cycGraph ≤ 10 ∧
    (processModuleF cycGraph none 10 (some 0) [] []
         = processModuleF cycGraph none (defaultFuel cycGraph) (some 0) [] [] ∧
      (processModuleF cycGraph none (defaultFuel cycGraph) (some 0) [] []).isSome
        = true) :=
  ⟨by decide, C4_walk_terminates.1 cycGraph none (some 0) 10 (by decide)⟩

/-- C5 counterexample: in `importsThrowGraph` the only module's `imports`
read throws, yet its controller IS discovered — the run's RouteMap is not
empty, refuting "that module is skipped entirely: neither its controllers
nor its further imports are discovered". -/
theorem C5_counterexample :
    extractRoutesFromModule importsThrowGraph (some 0) none
        = [("AController", [RouteInfo.mk "GET" "/a" "AController.getA"])] ∧
    extractRoutesFromModule importsThrowGraph (some 0) none ≠ [] :=
  ⟨by decide, by decide⟩

/-- C5 (amended): a metadata error is swallowed and stops the module's
processing at the point it occurs: a throwing `controllers` read leaves the
map untouched and skips the imports, while a throwing `imports` read keeps
every controller insertion already made and only skips the imports. In both
cases the call returns normally, so the walk continues with siblings. -/
theorem C5_module_error_containment :
    (∀ (g : Graph) (pre : Option String) (fuel i : Nat) (mp : RouteMap)
       (vis : List Nat) (d : ModuleData) (err : Unit),
       i ∉ vis → lookupModule g i = some d → d.controllers = .error err →
       processModuleF g pre (fuel + 1) (some i) mp vis = some (mp, i :: vis)) ∧
    (∀ (g : Graph) (pre : Option String) (fuel i : Nat) (mp : RouteMap)
       (vis : List Nat) (d : ModuleData) (cs : List CtrlEntry) (err : Unit),
       i ∉ vis → lookupModule g i = some d → d.controllers = .ok cs →
       d.imports = .error err →
       processModuleF g pre (fuel + 1) (some i) mp vis
         = some ((processControllers pre cs mp).1, i :: vis)) := by
  constructor
  · intro g pre fuel i mp vis d err hv hlk hc
    rw [processModuleF_succ g pre fuel i mp vis hv]
    simp only [hlk, hc]
  · intro g pre fuel i mp vis d cs err hv hlk hc him
    rw [processModuleF_succ g pre fuel i mp vis hv]
    simp only [hlk, hc]
    rcases hpc : processControllers pre cs mp with ⟨m₁, flag⟩
    cases flag
    · simp only [hpc, him]
    · simp only [hpc]

/-- Witness for C5 (amended) on the concrete imports-throwing module. -/
theorem C5_module_error_containment_witness :
    (0 ∉ ([] : List Nat)) ∧
    lookupModule importsThrowGraph 0 = some ⟨.ok [.ctrl ctrlA], .error ()⟩ ∧
    (⟨.ok [.ctrl ctrlA], .error ()⟩ : ModuleData).controllers = .ok [.ctrl ctrlA] ∧
    (⟨.ok [.ctrl ctrlA], .error ()⟩ : ModuleData).imports = .error () ∧
    processModuleF importsThrowGraph none 1 (some 0) [] []
      = some ((processControllers none [.ctrl ctrlA] []).1, [0]) :=
  ⟨by decide, by decide, by decide, by decide,
   C5_module_error_containment.2 importsThrowGraph none 0 0 [] []
     ⟨.ok [.ctrl ctrlA], .error ()⟩ [.ctrl ctrlA] ()
     (by decide) (by decide) (by decide) (by decide)⟩

/-- C6: a member yields a RouteRecord iff both its declared path metadata
and its declared verb metadata are present; a member that yields none
(absent metadata or a thrown read, both of which make `extractMember`
return `none`) is skipped silently, leaving the remaining members' records
unchanged. -/
theorem C6_member_extraction :
    (∀ (pre : Option String) (bp n : String) (mem : Member),
       (∃ r, extractMember pre bp n mem = some r) ↔
         ((∃ p, mem.pathMeta = Except.ok (some p)) ∧
          (∃ v, mem.methodMeta = Except.ok (some v)))) ∧
    (∀ (pre : Option String) (nm : String) (bpo : Option String)
       (ms₁ ms₂ : List Member) (mem : Member),
       extractMember pre (bpo.getD "") nm mem = none →
       extractControllerRoutes ⟨nm, .ok bpo, ms₁ ++ mem :: ms₂⟩ pre
         = extractControllerRoutes ⟨nm, .ok bpo, ms₁ ++ ms₂⟩ pre) :=
  ⟨extractMember_isSome_iff, extractControllerRoutes_skip⟩

/-- Witness for C6: a path-less member between ordinary members is skipped
and a fully-annotated member produces a record. -/
theorem C6_member_extraction_witness :
    extractMember none "" "TestController" badMem = none ∧
    extractControllerRoutes ⟨"TestController", .ok none, [badMem, goodMem]⟩ none
        = extractControllerRoutes ⟨"TestController", .ok none, [goodMem]⟩ none ∧
    (∃ r, extractMember none "" "TestController" goodMem = some r) :=
  ⟨by decide,
   C6_member_extraction.2 none "TestController" none [] [goodMem] badMem (by decide),
   (C6_member_extraction.1 none "" "TestController" goodMem).mpr
     ⟨⟨"x", by decide⟩, ⟨.num 0, by decide⟩⟩⟩

/-- C7: each known numeric verb code maps to its canonical uppercase name,
and every verb value whose key misses the map falls back to
stringify-then-uppercase; the normalization is a total function, so it
never fails. -/
theorem C7_verb_normalization :
    normalizeVerb (.num 0) = "GET" ∧ normalizeVerb (.num 1) = "POST" ∧
    normalizeVerb (.num 2) = "PUT" ∧ normalizeVerb (.num 3) = "DELETE" ∧
    normalizeVerb (.num 4) = "PATCH" ∧ normalizeVerb (.num 5) = "OPTIONS" ∧
    normalizeVerb (.num 6) = "HEAD" ∧ normalizeVerb (.num 7) = "ALL" ∧
    (∀ v : VerbVal, REQUEST_METHOD_MAP v = none →
       normalizeVerb v = toUpperStr v.key) := by
  refine ⟨by decide, by decide, by decide, by decide, by decide, by decide,
    by decide, by decide, ?_⟩
  intro v hv
  unfold normalizeVerb
  rw [hv]
  rfl

/-- Witness for C7 at the unrecognized code 42. -/
theorem C7_verb_normalization_witness :
    REQUEST_METHOD_MAP (VerbVal.num 42) = none ∧
    normalizeVerb (VerbVal.num 42) = toUpperStr (VerbVal.num 42).key ∧
    normalizeVerb (VerbVal.num 42) = "42" :=
  ⟨by decide,
   C7_verb_normalization.2.2.2.2.2.2.2.2 (VerbVal.num 42) (by decide),
   by decide⟩

/-- C8: when two distinct controllers share a name the run completes
without error and the later-discovered controller's records overwrite the
earlier entry: inserting under an existing name always leaves the new
records there, and the concrete duplicate-name graph ends with only the
second controller's records. -/
theorem C8_duplicate_name_overwrites :
    (∀ (m : RouteMap) (k : String) (v : List RouteInfo),
       lookupEntry (setEntry m k v) k = some v) ∧
    (processModuleF dupGraph none (defaultFuel dupGraph) (some 0) [] []).isSome
        = true ∧
    extractRoutesFromModule dupGraph (some 0) none
      = [("DupController", [RouteInfo.mk "POST" "/second" "DupController.m2"])] :=
  ⟨fun m k v => lookupEntry_setEntry k v m, by decide, by decide⟩

/-- C9: every value stored in the returned RouteMap is a non-empty list of
records, and a controller extracting zero records contributes no key. -/
theorem C9_map_values_nonempty :
    (∀ (g : Graph) (entry : Option Nat) (pre : Option String),
       ∀ kv ∈ extractRoutesFromModule g entry pre, kv.2 ≠ []) ∧
    extractRoutesFromModule emptyCtrlGraph (some 0) none = [] :=
  ⟨extractRoutesFromModule_values_nonempty, by decide⟩

/-- Witness for C9 at the cyclic example graph. -/
theorem C9_map_values_nonempty_witness :
    (("AController", [RouteInfo.mk "GET" "/a" "AController.getA"])
        ∈ extractRoutesFromModule cycGraph (some 0) none) ∧
    ("AController", [RouteInfo.mk "GET" "/a" "AController.getA"]).2 ≠ [] :=
  ⟨by decide,
   C9_map_values_nonempty.1 cycGraph (some 0) none
     ("AController", [RouteInfo.mk "GET" "/a" "AController.getA"]) (by decide)⟩

/-- C10: discovery invoked with a null or undefined entry module descriptor
returns an empty RouteMap and the walk returns normally (no error). -/
theorem C10_null_entry_empty :
    ∀ (g : Graph) (pre : Option String),
      extractRoutesFromModule g none pre = [] ∧
      (processModuleF g pre (defaultFuel g) none [] []).isSome = true := by
  intro g pre
  have h : processModuleF g pre (defaultFuel g) none [] [] = some ([], []) := by
    unfold defaultFuel
    rfl
  exact ⟨by unfold extractRoutesFromModule; rw [h], by rw [h]; rfl⟩

end RouteScanner
